import Mathlib

/-!
Verification of the `least` pager core against its natural-language
specification.  The Rust sources are shallowly embedded: bytes are `Nat`
(values `0 ≤ b < 256` in practice), Rust `String`s become lists of
character codepoints (`List Nat`), and the stateful loops become explicit
state-passing functions.

Sections:
* Overstrike decoder (`src/utils.rs`, `parse_styled_spans`)
* Key-sequence state machine (`src/keys.rs`, `KeyState::next`)
* Viewport/scroll engine (`src/app.rs`, the `App` scrolling methods)
* Line store (`src/input.rs`, `OpenedInput`)
* Reader task (`src/input.rs`, the loop spawned by `Input::open`)
-/

/-! ## Overstrike decoder (src/utils.rs, parse_styled_spans)

`parse_styled_spans` walks raw line bytes with a 3-state recognizer and
accumulates styled spans.  Style `plain` embeds ratatui's
`Style::default()`, `bold` embeds `Style::new().bold()`, `underline`
embeds `Style::default().underlined()`.  The accumulated span text is the
list of codepoints pushed by `current_text.push(byte as char)`, so each
byte value becomes one codepoint, exactly as `u8 as char` does. -/

inductive PStyle where
  | plain
  | bold
  | underline
  deriving DecidableEq, Repr

/-- The recognizer states `Idle`, `SawChar(u8)`, `SawCharBack(u8)` declared
inside `parse_styled_spans`. -/
inductive RecState where
  | idle
  | sawChar (c : Nat)
  | sawCharBack (c : Nat)
  deriving DecidableEq, Repr

/-- The mutable locals of `parse_styled_spans`: `result`, `current_style`,
`current_text`, `state`. -/
structure DecSt where
  result : List (List Nat × PStyle)
  current_style : PStyle
  current_text : List Nat
  state : RecState
  deriving DecidableEq, Repr

/-- The `push_span` closure: flush `current_text` under the old style when
the style changes, then switch to the new style. -/
def pushSpan (st : DecSt) (newStyle : PStyle) : DecSt :=
  if st.current_style ≠ newStyle then
    if st.current_text ≠ [] then
      { st with
        result := st.result ++ [(st.current_text, st.current_style)]
        current_text := []
        current_style := newStyle }
    else
      { st with current_style := newStyle }
  else st

/-- `current_text.push(c as char)`. -/
def pushChar (st : DecSt) (c : Nat) : DecSt :=
  { st with current_text := st.current_text ++ [c] }

/-- `state = ...` assignment. -/
def DecSt.setState (st : DecSt) (s : RecState) : DecSt :=
  { st with state := s }

/-- One iteration of the `while i < input.len()` loop of
`parse_styled_spans`; every branch consumes exactly one byte (`i += 1`). -/
def stepByte (st : DecSt) (byte : Nat) : DecSt :=
  match st.state with
  | RecState.idle => st.setState (RecState.sawChar byte)
  | RecState.sawChar prev =>
    if byte = 8 then
      st.setState (RecState.sawCharBack prev)
    else
      ((pushChar (pushSpan st PStyle.plain) prev).setState (RecState.sawChar byte))
  | RecState.sawCharBack prev =>
    if prev = byte then
      ((pushChar (pushSpan st PStyle.bold) byte).setState RecState.idle)
    else if prev = 95 then
      ((pushChar (pushSpan st PStyle.underline) byte).setState RecState.idle)
    else
      ((pushChar (pushSpan (pushChar (pushSpan st PStyle.plain) prev) PStyle.plain)
        byte).setState RecState.idle)

/-- The flush after the loop: an outstanding `SawChar(c)` is emitted as
plain, then any remaining `current_text` is pushed as a final span. -/
def finalizeSpans (st : DecSt) : List (List Nat × PStyle) :=
  let st2 :=
    match st.state with
    | RecState.sawChar c => pushChar (pushSpan st PStyle.plain) c
    | _ => st
  if st2.current_text ≠ [] then
    st2.result ++ [(st2.current_text, st2.current_style)]
  else st2.result

def initDecSt : DecSt :=
  { result := [], current_style := PStyle.plain, current_text := [], state := RecState.idle }

/-- `parse_styled_spans` as a whole: fold the loop body over the input
bytes, then flush. -/
def parse_styled_spans (input : List Nat) : List (List Nat × PStyle) :=
  finalizeSpans (input.foldl stepByte initDecSt)

/-- The checked-index variant of the parse loop: `input[i]` is modelled by
`List.get?` (an out-of-bounds access, i.e. a Rust panic, yields `none`),
and the `while` loop runs on explicit fuel (exhausted fuel, i.e. a loop
that fails to terminate, also yields `none`). -/
def parseLoopGo : Nat → List Nat → Nat → DecSt → Option DecSt
  | 0, _, _, _ => Option.none
  | fuel + 1, input, i, st =>
    if i < input.length then
      match input.get? i with
      | Option.none => Option.none
      | Option.some b => parseLoopGo fuel input (i + 1) (stepByte st b)
    else Option.some st

def parse_styled_spans_checked (input : List Nat) : Option (List (List Nat × PStyle)) :=
  (parseLoopGo (input.length + 1) input 0 initDecSt).map finalizeSpans

/-- The characters a decoder state has emitted so far, in order, with the
style each was emitted under (flattening the flushed spans and the
still-accumulating `current_text`). -/
def spanChars (sp : List Nat × PStyle) : List (Nat × PStyle) :=
  sp.1.map (fun c => (c, sp.2))

def spansChars (l : List (List Nat × PStyle)) : List (Nat × PStyle) :=
  (l.map spanChars).flatten

def emittedChars (st : DecSt) : List (Nat × PStyle) :=
  spansChars st.result ++ st.current_text.map (fun c => (c, st.current_style))

/-! ### Decoder lemmas -/

theorem pushSpan_style (st : DecSt) (s : PStyle) : (pushSpan st s).current_style = s := by
  unfold pushSpan
  by_cases h : st.current_style = s
  · simp [h]
  · by_cases h2 : st.current_text = [] <;> simp [h, h2]

theorem pushSpan_state (st : DecSt) (s : PStyle) : (pushSpan st s).state = st.state := by
  unfold pushSpan
  by_cases h : st.current_style = s
  · simp [h]
  · by_cases h2 : st.current_text = [] <;> simp [h, h2]

theorem emitted_pushSpan (st : DecSt) (s : PStyle) :
    emittedChars (pushSpan st s) = emittedChars st := by
  unfold pushSpan emittedChars spansChars
  by_cases h : st.current_style = s
  · simp [h]
  · by_cases h2 : st.current_text = [] <;> simp [h, h2, spanChars]

theorem emitted_pushChar (st : DecSt) (c : Nat) :
    emittedChars (pushChar st c) = emittedChars st ++ [(c, st.current_style)] := by
  simp [pushChar, emittedChars]

theorem emitted_setState (st : DecSt) (s : RecState) :
    emittedChars (st.setState s) = emittedChars st := rfl

/-- Invariant of the decoder state that yields span coalescing: flushed
spans alternate styles and are nonempty, text is pending whenever a span
has been flushed, and the pending style differs from the last flushed
span's style. -/
def DecInv (st : DecSt) : Prop :=
  List.Chain' (fun a b => a.2 ≠ b.2) st.result ∧
  (∀ sp ∈ st.result, sp.1 ≠ []) ∧
  (st.result ≠ [] → st.current_text ≠ []) ∧
  (∀ sp, st.result.getLast? = Option.some sp → sp.2 ≠ st.current_style)

theorem decInv_init : DecInv initDecSt := by
  refine ⟨?_, ?_, ?_, ?_⟩ <;> simp [initDecSt]

theorem decInv_pushPair (st : DecSt) (s : PStyle) (c : Nat) (h : DecInv st) :
    DecInv (pushChar (pushSpan st s) c) := by
  obtain ⟨hchain, hmem, htext, hlast⟩ := h
  unfold pushSpan pushChar
  by_cases hs : st.current_style = s
  · rw [if_neg (by simp [hs])]
    refine ⟨hchain, hmem, fun _ => by simp, ?_⟩
    intro sp hsp
    have := hlast sp hsp
    simpa [hs] using this
  · rw [if_pos (by simp [hs])]
    by_cases ht : st.current_text = []
    · have hres : st.result = [] := by
        by_contra hne
        exact (htext hne) ht
      rw [if_neg (by simp [ht])]
      refine ⟨by simp [hres], by simp [hres], by simp [hres], by simp [hres]⟩
    · rw [if_pos (by simp [ht])]
      refine ⟨?_, ?_, ?_, ?_⟩
      · show List.Chain' (fun a b => a.2 ≠ b.2)
          (st.result ++ [(st.current_text, st.current_style)])
        rw [List.chain'_append]
        refine ⟨hchain, List.chain'_singleton _, ?_⟩
        intro x hx y hy
        simp only [List.head?_cons, Option.mem_def, Option.some.injEq] at hy
        subst hy
        exact hlast x hx
      · show ∀ sp ∈ st.result ++ [(st.current_text, st.current_style)], sp.1 ≠ []
        intro sp hsp
        rcases List.mem_append.mp hsp with h1 | h2
        · exact hmem sp h1
        · simp only [List.mem_singleton] at h2
          subst h2
          exact ht
      · intro _
        show ([] : List Nat) ++ [c] ≠ []
        simp
      · intro sp hsp
        have hsp2 : (st.result ++ [(st.current_text, st.current_style)]).getLast?
            = Option.some sp := hsp
        rw [List.getLast?_concat] at hsp2
        injection hsp2 with hsp2
        subst hsp2
        show st.current_style ≠ s
        exact hs

theorem decInv_setState (st : DecSt) (s : RecState) (h : DecInv st) :
    DecInv (st.setState s) := h

theorem decInv_step (st : DecSt) (b : Nat) (h : DecInv st) : DecInv (stepByte st b) := by
  unfold stepByte
  match hst : st.state with
  | RecState.idle => exact h
  | RecState.sawChar prev =>
    show DecInv (if b = 8 then st.setState (RecState.sawCharBack prev)
      else (pushChar (pushSpan st PStyle.plain) prev).setState (RecState.sawChar b))
    by_cases hb : b = 8
    · rw [if_pos hb]
      exact h
    · rw [if_neg hb]
      exact decInv_setState _ _ (decInv_pushPair st PStyle.plain prev h)
  | RecState.sawCharBack prev =>
    show DecInv (if prev = b then (pushChar (pushSpan st PStyle.bold) b).setState RecState.idle
      else if prev = 95 then
        (pushChar (pushSpan st PStyle.underline) b).setState RecState.idle
      else (pushChar (pushSpan (pushChar (pushSpan st PStyle.plain) prev) PStyle.plain)
        b).setState RecState.idle)
    by_cases h1 : prev = b
    · rw [if_pos h1]
      exact decInv_setState _ _ (decInv_pushPair st PStyle.bold b h)
    · rw [if_neg h1]
      by_cases h2 : prev = 95
      · rw [if_pos h2]
        exact decInv_setState _ _ (decInv_pushPair st PStyle.underline b h)
      · rw [if_neg h2]
        exact decInv_setState _ _
          (decInv_pushPair _ PStyle.plain b (decInv_pushPair st PStyle.plain prev h))

theorem decInv_foldl (input : List Nat) (st : DecSt) (h : DecInv st) :
    DecInv (input.foldl stepByte st) := by
  induction input generalizing st with
  | nil => exact h
  | cons b rest ih => exact ih _ (decInv_step st b h)

/-- The flushed result of any invariant-satisfying state has pairwise
distinct adjacent styles and no empty span. -/
theorem finalize_coalesced (st : DecSt) (h : DecInv st) :
    List.Chain' (fun a b => a.2 ≠ b.2) (finalizeSpans st) ∧
    ∀ sp ∈ finalizeSpans st, sp.1 ≠ [] := by
  unfold finalizeSpans
  have key : ∀ st2 : DecSt, DecInv st2 →
      List.Chain' (fun a b => a.2 ≠ b.2)
        (if st2.current_text ≠ [] then
          st2.result ++ [(st2.current_text, st2.current_style)] else st2.result) ∧
      ∀ sp ∈ (if st2.current_text ≠ [] then
          st2.result ++ [(st2.current_text, st2.current_style)] else st2.result),
        sp.1 ≠ [] := by
    intro st2 h2
    obtain ⟨hchain, hmem, _, hlast⟩ := h2
    by_cases ht : st2.current_text = []
    · rw [if_neg (by simp [ht])]
      exact ⟨hchain, hmem⟩
    · rw [if_pos (by simp [ht])]
      constructor
      · rw [List.chain'_append]
        refine ⟨hchain, List.chain'_singleton _, ?_⟩
        intro x hx y hy
        simp only [List.head?_cons, Option.mem_def, Option.some.injEq] at hy
        subst hy
        exact hlast x hx
      · intro sp hsp
        rcases List.mem_append.mp hsp with h1 | h2
        · exact hmem sp h1
        · simp only [List.mem_singleton] at h2
          subst h2
          exact ht
  match hst : st.state with
  | RecState.sawChar c => exact key _ (decInv_pushPair st PStyle.plain c h)
  | RecState.idle => exact key st h
  | RecState.sawCharBack c => exact key st h

theorem parseLoopGo_eq (fuel : Nat) : ∀ (input : List Nat) (i : Nat) (st : DecSt),
    input.length - i ≤ fuel →
    parseLoopGo (fuel + 1) input i st = Option.some ((input.drop i).foldl stepByte st) := by
  induction fuel with
  | zero =>
    intro input i st hle
    have hge : input.length ≤ i := by omega
    unfold parseLoopGo
    rw [if_neg (by omega)]
    rw [List.drop_eq_nil_of_le hge]
    rfl
  | succ fuel ih =>
    intro input i st hle
    unfold parseLoopGo
    by_cases hi : i < input.length
    · rw [if_pos hi]
      have hget : input.get? i = Option.some (input.get ⟨i, hi⟩) := List.get?_eq_get hi
      rw [hget]
      show parseLoopGo (fuel + 1) input (i + 1) (stepByte st (input.get ⟨i, hi⟩))
        = Option.some ((input.drop i).foldl stepByte st)
      rw [ih input (i + 1) (stepByte st (input.get ⟨i, hi⟩)) (by omega)]
      rw [List.drop_eq_getElem_cons hi]
      rfl
    · rw [if_neg hi]
      rw [List.drop_eq_nil_of_le (by omega)]
      rfl

/-! ## Key-sequence state machine (src/keys.rs)

`KeyCode` collapses every crossterm key code the `match` arms distinguish:
`Char(c)` (codepoint `c`), `Enter`, `Esc`; all remaining crossterm codes
fall into the wildcard arms and are collapsed into `other`.  Modifiers are
carried (as the bitflag word) but every pattern in `KeyState::next`
ignores them. -/

inductive MKeyCode where
  | char (c : Nat)
  | enter
  | esc
  | other
  deriving DecidableEq, Repr

structure MKeyEvent where
  modifiers : Nat
  code : MKeyCode
  deriving DecidableEq, Repr

inductive KeyState where
  | normal
  | waitingG
  | waitingGNumber (n : Nat)
  deriving DecidableEq, Repr

inductive NavAction where
  | goToMain
  | goToTop
  | goToBottom
  | goToLine (n : Nat)
  | scrollUpOneLine
  | scrollDownOneLine
  | scrollUpHalfScreen
  | scrollDownHalfScreen
  | scrollUpScreen
  | scrollDownScreen
  | none
  | quit
  deriving DecidableEq, Repr

/-- `c.is_ascii_digit()`. -/
def isAsciiDigit (c : Nat) : Bool := 48 ≤ c && c ≤ 57

/-- `c.to_digit(10).unwrap() as usize` for an ASCII digit codepoint. -/
def toDigitVal (c : Nat) : Nat := c - 48

/-- `KeyState::next`.  Codepoints: `q` = 113, `d` = 100, `u` = 117,
`f` = 102, `b` = 98, `j` = 106, `k` = 107, `g` = 103, `G` = 71. -/
def KeyState.next (s : KeyState) (key : MKeyEvent) : KeyState × NavAction :=
  match s with
  | KeyState.normal =>
    match key.code with
    | MKeyCode.esc => (KeyState.normal, NavAction.quit)
    | MKeyCode.char c =>
      if c = 113 then (KeyState.normal, NavAction.quit)
      else if c = 100 then (KeyState.normal, NavAction.scrollDownHalfScreen)
      else if c = 117 then (KeyState.normal, NavAction.scrollUpHalfScreen)
      else if c = 102 then (KeyState.normal, NavAction.scrollDownScreen)
      else if c = 98 then (KeyState.normal, NavAction.scrollUpScreen)
      else if c = 106 then (KeyState.normal, NavAction.scrollDownOneLine)
      else if c = 107 then (KeyState.normal, NavAction.scrollUpOneLine)
      else if c = 103 then (KeyState.waitingG, NavAction.none)
      else if c = 71 then (KeyState.normal, NavAction.goToBottom)
      else (KeyState.normal, NavAction.none)
    | _ => (KeyState.normal, NavAction.none)
  | KeyState.waitingG =>
    match key.code with
    | MKeyCode.char c =>
      if c = 103 then (KeyState.normal, NavAction.goToTop)
      else if isAsciiDigit c then (KeyState.waitingGNumber (toDigitVal c), NavAction.none)
      else (KeyState.normal, NavAction.none)
    | _ => (KeyState.normal, NavAction.none)
  | KeyState.waitingGNumber n =>
    match key.code with
    | MKeyCode.char c =>
      if isAsciiDigit c then (KeyState.waitingGNumber (n * 10 + toDigitVal c), NavAction.none)
      else (KeyState.normal, NavAction.none)
    | MKeyCode.enter => (KeyState.normal, NavAction.goToLine n)
    | _ => (KeyState.normal, NavAction.none)

/-- Feeding a key sequence through repeated `KeyState::next` calls (as
`App::on_key_event` does), collecting the produced actions. -/
def runKeys (s : KeyState) : List MKeyEvent → KeyState × List NavAction
  | [] => (s, [])
  | k :: ks =>
    let sa := s.next k
    let rest := runKeys sa.1 ks
    (rest.1, sa.2 :: rest.2)

/-! ## Events and line store (src/event.rs, src/input.rs)

`Event::Term(..)` carries a crossterm event; for the store and reader
properties only its presence matters, so its payload is dropped.  Lines
inside `NewLines` are the owned `String`s, embedded as codepoint lists. -/

inductive MEvent where
  | term
  | newLines (batch : List (List Nat))
  | eof
  | err (cause : List Nat)
  | readerThreadErrReturned
  deriving DecidableEq, Repr

/-- The consumer-side fields of `OpenedInput` (the `JoinHandle` is thread
bookkeeping, irrelevant to the store's data behaviour).  Stored lines are
kept as the byte lists that `line.clone().into_bytes()` later recovers. -/
structure OpenedInputSt where
  lines : List (List Nat)
  reached_eof : Bool
  current_total_lines : Nat
  deriving DecidableEq, Repr

def initOpenedInput : OpenedInputSt :=
  { lines := [], reached_eof := false, current_total_lines := 0 }

/-- `OpenedInput::handle_event`.  `Event::Err` propagates the error
(`Except.error`); the wildcard arm is `unreachable!()`, a panic, modelled
by `none`. -/
def OpenedInputSt.handle_event (st : OpenedInputSt) (e : MEvent) :
    Option (Except (List Nat) OpenedInputSt) :=
  match e with
  | MEvent.newLines ls =>
    Option.some (Except.ok
      { st with
        lines := st.lines ++ ls
        current_total_lines := (st.lines ++ ls).length })
  | MEvent.eof => Option.some (Except.ok { st with reached_eof := true })
  | MEvent.err cause => Option.some (Except.error cause)
  | _ => Option.none

/-- The `Event::NewLines` arm of `handle_event` in isolation:
`self.lines.extend(lines); self.current_total_lines = self.lines.len()`. -/
def applyBatch (st : OpenedInputSt) (b : List (List Nat)) : OpenedInputSt :=
  { st with lines := st.lines ++ b, current_total_lines := (st.lines ++ b).length }

theorem handle_event_newLines (st : OpenedInputSt) (b : List (List Nat)) :
    st.handle_event (MEvent.newLines b) = Option.some (Except.ok (applyBatch st b)) := rfl

/-- The store after a sequence of `NewLines` batches has been applied. -/
def storeAfter (batches : List (List (List Nat))) : OpenedInputSt :=
  batches.foldl applyBatch initOpenedInput

/-- Rust slice indexing `l[a..b]`, which panics (`none`) unless
`a ≤ b ≤ l.len()`. -/
def sliceChecked (l : List (List Nat)) (a b : Nat) : Option (List (List Nat)) :=
  if a ≤ b ∧ b ≤ l.length then Option.some ((l.drop a).take (b - a)) else Option.none

/-- `OpenedInput::lines`, value level: the guard, the clamped size, the
slice, and the per-line decode by `parse_styled_spans`.  (The ratatui
`Line::from` wrapping at the end is presentation only and keeps the spans
unchanged.) -/
def OpenedInputSt.linesFn (st : OpenedInputSt) (line_number_start line_size : Nat) :
    List (List (List Nat × PStyle)) :=
  if line_size = 0 ∨ st.lines.length < line_number_start then []
  else
    let size2 := min line_size (st.lines.length - line_number_start)
    ((st.lines.drop line_number_start).take size2).map parse_styled_spans

/-- `OpenedInput::lines` with the slice index and the `len - start`
subtraction checked: `none` models a panic, `Except.error` a returned
`Err` (the body has no failing branch, so the theorem shows neither
occurs). -/
def OpenedInputSt.linesFnChecked (st : OpenedInputSt) (line_number_start line_size : Nat) :
    Option (Except (List Nat) (List (List (List Nat × PStyle)))) :=
  if line_size = 0 ∨ st.lines.length < line_number_start then
    Option.some (Except.ok [])
  else
    let size2 := min line_size (st.lines.length - line_number_start)
    match sliceChecked st.lines line_number_start (line_number_start + size2) with
    | Option.none => Option.none
    | Option.some seg => Option.some (Except.ok (seg.map parse_styled_spans))

/-! ## Viewport / scroll engine (src/app.rs)

`App`'s scrolling state: the store it owns, `current_line`, and
`term_size`.  `usize::saturating_sub` is `Nat` subtraction;
`saturating_add` never saturates on reachable values and is plain `+`. -/

structure AppSt where
  store : OpenedInputSt
  current_line : Nat
  term_height : Nat
  term_width : Nat
  deriving DecidableEq, Repr

def initApp (h w : Nat) : AppSt :=
  { store := initOpenedInput, current_line := 0, term_height := h, term_width := w }

/-- `App::current_max_line`:
`current_total_lines().saturating_sub(term_height())`. -/
def current_max_line (a : AppSt) : Nat :=
  a.store.current_total_lines - a.term_height

/-- `App::term_half_height`. -/
def term_half_height (a : AppSt) : Nat := a.term_height / 2

/-- The operations of claim C3: every scrolling method of `App`, terminal
resize, and ingestion of a `NewLines` batch into the store. -/
inductive ViewOp where
  | scrollUpOneLine
  | scrollDownOneLine
  | scrollUpHalfScreen
  | scrollDownHalfScreen
  | scrollUpScreen
  | scrollDownScreen
  | goToTop
  | goToBottom
  | goToLine (n : Nat)
  | resize (w h : Nat)
  | ingest (batch : List (List Nat))
  deriving DecidableEq, Repr

def applyViewOp (a : AppSt) : ViewOp → AppSt
  | ViewOp.scrollUpOneLine => { a with current_line := a.current_line - 1 }
  | ViewOp.scrollDownOneLine =>
    { a with current_line := min (a.current_line + 1) (current_max_line a) }
  | ViewOp.scrollUpHalfScreen =>
    { a with current_line := a.current_line - term_half_height a }
  | ViewOp.scrollDownHalfScreen =>
    { a with current_line := min (a.current_line + term_half_height a) (current_max_line a) }
  | ViewOp.scrollUpScreen => { a with current_line := a.current_line - a.term_height }
  | ViewOp.scrollDownScreen =>
    { a with current_line := min (a.current_line + a.term_height) (current_max_line a) }
  | ViewOp.goToTop => { a with current_line := 0 }
  | ViewOp.goToBottom => { a with current_line := current_max_line a }
  | ViewOp.goToLine n => { a with current_line := min n (current_max_line a) }
  | ViewOp.resize w h =>
    let a2 := { a with term_width := w, term_height := h }
    { a2 with current_line := min a2.current_line (current_max_line a2) }
  | ViewOp.ingest batch => { a with store := applyBatch a.store batch }

def applyViewOps (a : AppSt) (ops : List ViewOp) : AppSt :=
  ops.foldl applyViewOp a

/-- The viewport invariant of the spec:
`0 ≤ top_line ≤ max(0, total_count − height)` (the lower bound is the
`Nat` type, the upper bound is truncated subtraction). -/
def viewInv (a : AppSt) : Prop :=
  a.current_line ≤ a.store.current_total_lines - a.term_height

/-- Reachable-state invariant: the cached count matches the store length
(maintained by `handle_event`), and the scroll offset is in bounds. -/
def appInv (a : AppSt) : Prop :=
  a.store.current_total_lines = a.store.lines.length ∧ viewInv a

theorem appInv_step (a : AppSt) (op : ViewOp) (h : appInv a) : appInv (applyViewOp a op) := by
  obtain ⟨hcnt, hview⟩ := h
  have hv : a.current_line ≤ a.store.current_total_lines - a.term_height := hview
  cases op with
  | scrollUpOneLine =>
    refine ⟨hcnt, ?_⟩
    show a.current_line - 1 ≤ a.store.current_total_lines - a.term_height
    omega
  | scrollDownOneLine =>
    refine ⟨hcnt, ?_⟩
    show min (a.current_line + 1) (current_max_line a)
      ≤ a.store.current_total_lines - a.term_height
    exact min_le_right _ _
  | scrollUpHalfScreen =>
    refine ⟨hcnt, ?_⟩
    show a.current_line - term_half_height a ≤ a.store.current_total_lines - a.term_height
    exact le_trans (Nat.sub_le _ _) hv
  | scrollDownHalfScreen =>
    refine ⟨hcnt, ?_⟩
    show min (a.current_line + term_half_height a) (current_max_line a)
      ≤ a.store.current_total_lines - a.term_height
    exact min_le_right _ _
  | scrollUpScreen =>
    refine ⟨hcnt, ?_⟩
    show a.current_line - a.term_height ≤ a.store.current_total_lines - a.term_height
    exact le_trans (Nat.sub_le _ _) hv
  | scrollDownScreen =>
    refine ⟨hcnt, ?_⟩
    show min (a.current_line + a.term_height) (current_max_line a)
      ≤ a.store.current_total_lines - a.term_height
    exact min_le_right _ _
  | goToTop =>
    exact ⟨hcnt, Nat.zero_le _⟩
  | goToBottom =>
    refine ⟨hcnt, ?_⟩
    show current_max_line a ≤ a.store.current_total_lines - a.term_height
    exact le_refl _
  | goToLine n =>
    refine ⟨hcnt, ?_⟩
    show min n (current_max_line a) ≤ a.store.current_total_lines - a.term_height
    exact min_le_right _ _
  | resize w h2 =>
    refine ⟨hcnt, ?_⟩
    show min a.current_line (a.store.current_total_lines - h2)
      ≤ a.store.current_total_lines - h2
    exact min_le_right _ _
  | ingest batch =>
    refine ⟨?_, ?_⟩
    · show (applyBatch a.store batch).current_total_lines = (applyBatch a.store batch).lines.length
      simp [applyBatch]
    · show a.current_line ≤ (a.store.lines ++ batch).length - a.term_height
      rw [List.length_append]
      omega

theorem appInv_ops (a : AppSt) (ops : List ViewOp) (h : appInv a) :
    appInv (applyViewOps a ops) := by
  induction ops generalizing a with
  | nil => exact h
  | cons op rest ih => exact ih _ (appInv_step a op h)

/-! ## Reader task (src/input.rs, the thread body of Input::open)

The reader repeatedly calls `fill_buf`, splits the chunk at `\n` bytes
(keeping the terminator with each completed line), lossy-decodes each
completed line into a `String`, batches them, flushes the batch when the
16 ms timer fires, and at end-of-stream completes the trailing partial
line, flushes, and sends `EOF`.

UTF-8 decoding is modelled by `utf8Lossy`, the standard-conformant
maximal-subpart replacement that Rust's `String::from_utf8_lossy`
implements: ASCII and well-formed sequences decode to their codepoint,
every maximal invalid subpart becomes one U+FFFD (`0xFFFD`), and the
continuation-byte requirements of the leads `E0`, `ED`, `F0`, `F4` are the
restricted ranges of the UTF-8 definition. -/

def replacementChar : Nat := 0xFFFD

/-- Is `b` a UTF-8 continuation byte `0x80..=0xBF`? -/
def isUtf8Cont (b : Nat) : Bool := 0x80 ≤ b && b < 0xC0

/-- Allowed second-byte lower bound for a three-byte lead. -/
def snd3lo (b : Nat) : Nat := if b = 0xE0 then 0xA0 else 0x80

/-- Allowed second-byte upper bound (exclusive) for a three-byte lead. -/
def snd3hi (b : Nat) : Nat := if b = 0xED then 0xA0 else 0xC0

/-- Allowed second-byte lower bound for a four-byte lead. -/
def snd4lo (b : Nat) : Nat := if b = 0xF0 then 0x90 else 0x80

/-- Allowed second-byte upper bound (exclusive) for a four-byte lead. -/
def snd4hi (b : Nat) : Nat := if b = 0xF4 then 0x90 else 0xC0

/-- Lossy UTF-8 decoding of a byte list into codepoints, with
maximal-subpart replacement (each invalid maximal prefix of a sequence
collapses into one U+FFFD; an isolated invalid byte consumes one byte). -/
def utf8Lossy : List Nat → List Nat
  | [] => []
  | b :: r =>
    if b < 0x80 then b :: utf8Lossy r
    else if b < 0xC2 then replacementChar :: utf8Lossy r
    else if b < 0xE0 then
      match r with
      | [] => [replacementChar]
      | b1 :: r1 =>
        if isUtf8Cont b1 then ((b - 0xC0) * 64 + (b1 - 0x80)) :: utf8Lossy r1
        else replacementChar :: utf8Lossy (b1 :: r1)
    else if b < 0xF0 then
      match r with
      | [] => [replacementChar]
      | b1 :: r1 =>
        if snd3lo b ≤ b1 ∧ b1 < snd3hi b then
          match r1 with
          | [] => [replacementChar]
          | b2 :: r2 =>
            if isUtf8Cont b2 then
              ((b - 0xE0) * 4096 + (b1 - 0x80) * 64 + (b2 - 0x80)) :: utf8Lossy r2
            else replacementChar :: utf8Lossy (b2 :: r2)
        else replacementChar :: utf8Lossy (b1 :: r1)
    else if b < 0xF5 then
      match r with
      | [] => [replacementChar]
      | b1 :: r1 =>
        if snd4lo b ≤ b1 ∧ b1 < snd4hi b then
          match r1 with
          | [] => [replacementChar]
          | b2 :: r2 =>
            if isUtf8Cont b2 then
              match r2 with
              | [] => [replacementChar]
              | b3 :: r3 =>
                if isUtf8Cont b3 then
                  ((b - 0xF0) * 262144 + (b1 - 0x80) * 4096 + (b2 - 0x80) * 64 + (b3 - 0x80))
                    :: utf8Lossy r3
                else replacementChar :: utf8Lossy (b3 :: r3)
            else replacementChar :: utf8Lossy (b2 :: r2)
        else replacementChar :: utf8Lossy (b1 :: r1)
    else replacementChar :: utf8Lossy r

/-- The `while let Some(i) = memchr(b'\n', ..)` splitting loop over one
`fill_buf` chunk: completed lines (terminator included) are
lossy-decoded and appended to the batch, remaining bytes stay in
`line_buf`.  Returns the completed decoded lines and the new `line_buf`. -/
def splitChunk : List Nat → List Nat → List (List Nat) × List Nat
  | lineBuf, [] => ([], lineBuf)
  | lineBuf, b :: rest =>
    if b = 10 then
      let res := splitChunk [] rest
      (utf8Lossy (lineBuf ++ [10]) :: res.1, res.2)
    else splitChunk (lineBuf ++ [b]) rest

/-- One `fill_buf` outcome: a byte chunk (`[]` means end-of-stream), or an
I/O error that the `?` operator propagates out of the thread closure. -/
inductive ReadRes where
  | ok (bytes : List Nat)
  | fail (cause : List Nat)
  deriving DecidableEq, Repr

/-- The end-of-stream branch of the loop: complete the trailing partial
line, flush the batch if non-empty, then send `EOF` and return `Ok(())`. -/
def eofFinish (lineBuf : List Nat) (batch : List (List Nat)) : List MEvent :=
  let batch2 := if lineBuf = [] then batch else batch ++ [utf8Lossy lineBuf]
  (if batch2 = [] then [] else [MEvent.newLines batch2]) ++ [MEvent.eof]

/-- The reader loop.  Each entry of `chunks` is one `fill_buf` result; the
`flushes` list supplies, per iteration, whether the 16 ms flush timer has
fired (`last_flush.elapsed() >= flush_interval`) — quantifying over it
covers every timing schedule.  Pure-timeout poll wakeups mutate nothing
beyond a possible flush and are absorbed into the per-iteration flush
bit.  Returns the events sent in order and the thread's return value. -/
def readerLoop : List ReadRes → List Bool → List Nat → List (List Nat) →
    List MEvent × Except (List Nat) Unit
  | [], _, lineBuf, batch => (eofFinish lineBuf batch, Except.ok ())
  | ReadRes.fail cause :: _, _, _, _ => ([], Except.error cause)
  | ReadRes.ok bytes :: rest, flushes, lineBuf, batch =>
    if bytes = [] then (eofFinish lineBuf batch, Except.ok ())
    else
      let sp := splitChunk lineBuf bytes
      let batch2 := batch ++ sp.1
      if flushes.headD false ∧ batch2 ≠ [] then
        let res := readerLoop rest flushes.tail sp.2 []
        (MEvent.newLines batch2 :: res.1, res.2)
      else
        let res := readerLoop rest flushes.tail sp.2 batch2
        res

/-- How opening the source went inside the spawned closure. -/
inductive OpenRes where
  | openErr (cause : List Nat)
  | isDir (cause : List Nat)
  | opened
  deriving DecidableEq, Repr

/-- The whole thread body spawned by `Input::open`: an open failure or a
directory path makes the closure return `Err` at once (before the loop);
otherwise the loop runs over the stream. -/
def readerThread : OpenRes → List ReadRes → List Bool →
    List MEvent × Except (List Nat) Unit
  | OpenRes.openErr cause, _, _ => ([], Except.error cause)
  | OpenRes.isDir cause, _, _ => ([], Except.error cause)
  | OpenRes.opened, chunks, flushes => readerLoop chunks flushes [] []

/-- The bytes of the modelled stream. -/
def chunkBytes : ReadRes → List Nat
  | ReadRes.ok bytes => bytes
  | ReadRes.fail _ => []

def streamBytes (chunks : List ReadRes) : List Nat :=
  (chunks.map chunkBytes).flatten

/-- All lines delivered through `NewLines` events, in order. -/
def deliveredLines (evs : List MEvent) : List (List Nat) :=
  (evs.map (fun e => match e with | MEvent.newLines b => b | _ => [])).flatten

/-- `InputReader::read_line`'s normalization `buf.replace('\t', "  ")`
(dead code in the current sources: the reader loop never calls
`read_line`). -/
def replaceTabs : List Nat → List Nat
  | [] => []
  | b :: r => if b = 9 then 32 :: 32 :: replaceTabs r else b :: replaceTabs r

/-! ### Shape lemmas for `utf8Lossy` (one per decode step) -/

theorem utf8Lossy_nil : utf8Lossy [] = [] := rfl

theorem utf8Lossy_ascii (b : Nat) (r : List Nat) (h : b < 0x80) :
    utf8Lossy (b :: r) = b :: utf8Lossy r := by
  conv_lhs => rw [utf8Lossy.eq_def]
  dsimp only
  rw [if_pos h]

theorem utf8Lossy_badlead (b : Nat) (r : List Nat) (h1 : ¬b < 0x80) (h2 : b < 0xC2) :
    utf8Lossy (b :: r) = replacementChar :: utf8Lossy r := by
  conv_lhs => rw [utf8Lossy.eq_def]
  dsimp only
  rw [if_neg h1, if_pos h2]

theorem utf8Lossy_two_end (b : Nat) (h2 : ¬b < 0xC2) (h3 : b < 0xE0) :
    utf8Lossy [b] = [replacementChar] := by
  conv_lhs => rw [utf8Lossy.eq_def]
  dsimp only
  rw [if_neg (by omega), if_neg h2, if_pos h3]

theorem utf8Lossy_two_ok (b b1 : Nat) (r1 : List Nat) (h2 : ¬b < 0xC2) (h3 : b < 0xE0)
    (hc : isUtf8Cont b1 = true) :
    utf8Lossy (b :: b1 :: r1) = ((b - 0xC0) * 64 + (b1 - 0x80)) :: utf8Lossy r1 := by
  conv_lhs => rw [utf8Lossy.eq_def]
  dsimp only
  rw [if_neg (by omega), if_neg h2, if_pos h3, if_pos hc]

theorem utf8Lossy_two_bad (b b1 : Nat) (r1 : List Nat) (h2 : ¬b < 0xC2) (h3 : b < 0xE0)
    (hc : ¬isUtf8Cont b1 = true) :
    utf8Lossy (b :: b1 :: r1) = replacementChar :: utf8Lossy (b1 :: r1) := by
  conv_lhs => rw [utf8Lossy.eq_def]
  dsimp only
  rw [if_neg (by omega), if_neg h2, if_pos h3, if_neg hc]

theorem utf8Lossy_three_end (b : Nat) (h3 : ¬b < 0xE0) (h4 : b < 0xF0) :
    utf8Lossy [b] = [replacementChar] := by
  conv_lhs => rw [utf8Lossy.eq_def]
  dsimp only
  rw [if_neg (by omega), if_neg (by omega), if_neg h3, if_pos h4]

theorem utf8Lossy_three_end2 (b b1 : Nat) (h3 : ¬b < 0xE0) (h4 : b < 0xF0)
    (hp : snd3lo b ≤ b1 ∧ b1 < snd3hi b) :
    utf8Lossy [b, b1] = [replacementChar] := by
  conv_lhs => rw [utf8Lossy.eq_def]
  dsimp only
  rw [if_neg (by omega), if_neg (by omega), if_neg h3, if_pos h4, if_pos hp]

theorem utf8Lossy_three_ok (b b1 b2 : Nat) (r2 : List Nat) (h3 : ¬b < 0xE0) (h4 : b < 0xF0)
    (hp : snd3lo b ≤ b1 ∧ b1 < snd3hi b) (hc : isUtf8Cont b2 = true) :
    utf8Lossy (b :: b1 :: b2 :: r2)
      = ((b - 0xE0) * 4096 + (b1 - 0x80) * 64 + (b2 - 0x80)) :: utf8Lossy r2 := by
  conv_lhs => rw [utf8Lossy.eq_def]
  dsimp only
  rw [if_neg (by omega), if_neg (by omega), if_neg h3, if_pos h4, if_pos hp, if_pos hc]

theorem utf8Lossy_three_bad2 (b b1 b2 : Nat) (r2 : List Nat) (h3 : ¬b < 0xE0) (h4 : b < 0xF0)
    (hp : snd3lo b ≤ b1 ∧ b1 < snd3hi b) (hc : ¬isUtf8Cont b2 = true) :
    utf8Lossy (b :: b1 :: b2 :: r2) = replacementChar :: utf8Lossy (b2 :: r2) := by
  conv_lhs => rw [utf8Lossy.eq_def]
  dsimp only
  rw [if_neg (by omega), if_neg (by omega), if_neg h3, if_pos h4, if_pos hp, if_neg hc]

theorem utf8Lossy_three_bad1 (b b1 : Nat) (r1 : List Nat) (h3 : ¬b < 0xE0) (h4 : b < 0xF0)
    (hp : ¬(snd3lo b ≤ b1 ∧ b1 < snd3hi b)) :
    utf8Lossy (b :: b1 :: r1) = replacementChar :: utf8Lossy (b1 :: r1) := by
  conv_lhs => rw [utf8Lossy.eq_def]
  dsimp only
  rw [if_neg (by omega), if_neg (by omega), if_neg h3, if_pos h4, if_neg hp]

theorem utf8Lossy_four_end (b : Nat) (h4 : ¬b < 0xF0) (h5 : b < 0xF5) :
    utf8Lossy [b] = [replacementChar] := by
  conv_lhs => rw [utf8Lossy.eq_def]
  dsimp only
  rw [if_neg (by omega), if_neg (by omega), if_neg (by omega), if_neg h4, if_pos h5]

theorem utf8Lossy_four_end2 (b b1 : Nat) (h4 : ¬b < 0xF0) (h5 : b < 0xF5)
    (hp : snd4lo b ≤ b1 ∧ b1 < snd4hi b) :
    utf8Lossy [b, b1] = [replacementChar] := by
  conv_lhs => rw [utf8Lossy.eq_def]
  dsimp only
  rw [if_neg (by omega), if_neg (by omega), if_neg (by omega), if_neg h4, if_pos h5, if_pos hp]

theorem utf8Lossy_four_end3 (b b1 b2 : Nat) (h4 : ¬b < 0xF0) (h5 : b < 0xF5)
    (hp : snd4lo b ≤ b1 ∧ b1 < snd4hi b) (hc : isUtf8Cont b2 = true) :
    utf8Lossy [b, b1, b2] = [replacementChar] := by
  conv_lhs => rw [utf8Lossy.eq_def]
  dsimp only
  rw [if_neg (by omega), if_neg (by omega), if_neg (by omega), if_neg h4, if_pos h5, if_pos hp,
    if_pos hc]

theorem utf8Lossy_four_ok (b b1 b2 b3 : Nat) (r3 : List Nat) (h4 : ¬b < 0xF0) (h5 : b < 0xF5)
    (hp : snd4lo b ≤ b1 ∧ b1 < snd4hi b) (hc2 : isUtf8Cont b2 = true)
    (hc3 : isUtf8Cont b3 = true) :
    utf8Lossy (b :: b1 :: b2 :: b3 :: r3)
      = ((b - 0xF0) * 262144 + (b1 - 0x80) * 4096 + (b2 - 0x80) * 64 + (b3 - 0x80))
        :: utf8Lossy r3 := by
  conv_lhs => rw [utf8Lossy.eq_def]
  dsimp only
  rw [if_neg (by omega), if_neg (by omega), if_neg (by omega), if_neg h4, if_pos h5, if_pos hp,
    if_pos hc2, if_pos hc3]

theorem utf8Lossy_four_bad3 (b b1 b2 b3 : Nat) (r3 : List Nat) (h4 : ¬b < 0xF0) (h5 : b < 0xF5)
    (hp : snd4lo b ≤ b1 ∧ b1 < snd4hi b) (hc2 : isUtf8Cont b2 = true)
    (hc3 : ¬isUtf8Cont b3 = true) :
    utf8Lossy (b :: b1 :: b2 :: b3 :: r3) = replacementChar :: utf8Lossy (b3 :: r3) := by
  conv_lhs => rw [utf8Lossy.eq_def]
  dsimp only
  rw [if_neg (by omega), if_neg (by omega), if_neg (by omega), if_neg h4, if_pos h5, if_pos hp,
    if_pos hc2, if_neg hc3]

theorem utf8Lossy_four_bad2 (b b1 b2 : Nat) (r2 : List Nat) (h4 : ¬b < 0xF0) (h5 : b < 0xF5)
    (hp : snd4lo b ≤ b1 ∧ b1 < snd4hi b) (hc2 : ¬isUtf8Cont b2 = true) :
    utf8Lossy (b :: b1 :: b2 :: r2) = replacementChar :: utf8Lossy (b2 :: r2) := by
  conv_lhs => rw [utf8Lossy.eq_def]
  dsimp only
  rw [if_neg (by omega), if_neg (by omega), if_neg (by omega), if_neg h4, if_pos h5, if_pos hp,
    if_neg hc2]

theorem utf8Lossy_four_bad1 (b b1 : Nat) (r1 : List Nat) (h4 : ¬b < 0xF0) (h5 : b < 0xF5)
    (hp : ¬(snd4lo b ≤ b1 ∧ b1 < snd4hi b)) :
    utf8Lossy (b :: b1 :: r1) = replacementChar :: utf8Lossy (b1 :: r1) := by
  conv_lhs => rw [utf8Lossy.eq_def]
  dsimp only
  rw [if_neg (by omega), if_neg (by omega), if_neg (by omega), if_neg h4, if_pos h5, if_neg hp]

theorem utf8Lossy_high (b : Nat) (r : List Nat) (h5 : ¬b < 0xF5) :
    utf8Lossy (b :: r) = replacementChar :: utf8Lossy r := by
  conv_lhs => rw [utf8Lossy.eq_def]
  dsimp only
  rw [if_neg (by omega), if_neg (by omega), if_neg (by omega), if_neg (by omega), if_neg h5]

theorem utf8Lossy_cons10 (ys : List Nat) : utf8Lossy (10 :: ys) = 10 :: utf8Lossy ys :=
  utf8Lossy_ascii 10 ys (by omega)

theorem isUtf8Cont_ten : isUtf8Cont 10 = false := rfl

theorem snd3_not_ten (b : Nat) : ¬(snd3lo b ≤ 10 ∧ 10 < snd3hi b) := by
  intro h
  rcases h with ⟨hlo, _⟩
  unfold snd3lo at hlo
  split at hlo <;> omega

theorem snd4_not_ten (b : Nat) : ¬(snd4lo b ≤ 10 ∧ 10 < snd4hi b) := by
  intro h
  rcases h with ⟨hlo, _⟩
  unfold snd4lo at hlo
  split at hlo <;> omega

/-- Key structural fact: a `0x0A` byte is never consumed as part of a
multi-byte sequence (it is neither a continuation byte nor in any
restricted second-byte range), so lossy decoding distributes over
splitting at a newline byte. -/
theorem utf8Lossy_split_aux :
    ∀ n xs ys, List.length xs ≤ n →
      utf8Lossy (xs ++ 10 :: ys) = utf8Lossy xs ++ 10 :: utf8Lossy ys := by
  intro n
  induction n with
  | zero =>
    intro xs ys hxs
    have hx : xs = [] := List.length_eq_zero.mp (Nat.le_zero.mp hxs)
    subst hx
    rw [List.nil_append, utf8Lossy_cons10, utf8Lossy_nil, List.nil_append]
  | succ n ih =>
    intro xs ys hxs
    cases xs with
    | nil => rw [List.nil_append, utf8Lossy_cons10, utf8Lossy_nil, List.nil_append]
    | cons b t =>
      have hlen : t.length ≤ n := by
        simp only [List.length_cons] at hxs
        omega
      simp only [List.cons_append]
      by_cases h1 : b < 0x80
      · rw [utf8Lossy_ascii b _ h1, utf8Lossy_ascii b t h1, ih t ys hlen, List.cons_append]
      · by_cases h2 : b < 0xC2
        · rw [utf8Lossy_badlead b _ h1 h2, utf8Lossy_badlead b t h1 h2, ih t ys hlen,
            List.cons_append]
        · by_cases h3 : b < 0xE0
          · -- two-byte lead
            cases t with
            | nil =>
              rw [List.nil_append, utf8Lossy_two_bad b 10 ys h2 h3 (by decide),
                utf8Lossy_cons10, utf8Lossy_two_end b h2 h3, List.singleton_append]
            | cons b1 t1 =>
              simp only [List.cons_append]
              by_cases hc : isUtf8Cont b1 = true
              · have h4 : t1.length ≤ n := by
                  simp only [List.length_cons] at hxs
                  omega
                rw [utf8Lossy_two_ok b b1 _ h2 h3 hc, utf8Lossy_two_ok b b1 t1 h2 h3 hc,
                  ih t1 ys h4, List.cons_append]
              · have hih := ih (b1 :: t1) ys hlen
                simp only [List.cons_append] at hih
                rw [utf8Lossy_two_bad b b1 _ h2 h3 hc, utf8Lossy_two_bad b b1 t1 h2 h3 hc,
                  hih, List.cons_append]
          · by_cases h4 : b < 0xF0
            · -- three-byte lead
              cases t with
              | nil =>
                rw [List.nil_append, utf8Lossy_three_bad1 b 10 ys h3 h4 (snd3_not_ten b),
                  utf8Lossy_cons10, utf8Lossy_three_end b h3 h4, List.singleton_append]
              | cons b1 t1 =>
                simp only [List.cons_append]
                by_cases hp : snd3lo b ≤ b1 ∧ b1 < snd3hi b
                · cases t1 with
                  | nil =>
                    rw [List.nil_append, utf8Lossy_three_bad2 b b1 10 ys h3 h4 hp (by decide),
                      utf8Lossy_cons10, utf8Lossy_three_end2 b b1 h3 h4 hp,
                      List.singleton_append]
                  | cons b2 t2 =>
                    simp only [List.cons_append]
                    by_cases hc : isUtf8Cont b2 = true
                    · have h5 : t2.length ≤ n := by
                        simp only [List.length_cons] at hxs
                        omega
                      rw [utf8Lossy_three_ok b b1 b2 _ h3 h4 hp hc,
                        utf8Lossy_three_ok b b1 b2 t2 h3 h4 hp hc, ih t2 ys h5,
                        List.cons_append]
                    · have h5 : (b2 :: t2).length ≤ n := by
                        simp only [List.length_cons] at hxs ⊢
                        omega
                      have hih := ih (b2 :: t2) ys h5
                      simp only [List.cons_append] at hih
                      rw [utf8Lossy_three_bad2 b b1 b2 _ h3 h4 hp hc,
                        utf8Lossy_three_bad2 b b1 b2 t2 h3 h4 hp hc, hih, List.cons_append]
                · have hih := ih (b1 :: t1) ys hlen
                  simp only [List.cons_append] at hih
                  rw [utf8Lossy_three_bad1 b b1 _ h3 h4 hp,
                    utf8Lossy_three_bad1 b b1 t1 h3 h4 hp, hih, List.cons_append]
            · by_cases h5 : b < 0xF5
              · -- four-byte lead
                cases t with
                | nil =>
                  rw [List.nil_append, utf8Lossy_four_bad1 b 10 ys h4 h5 (snd4_not_ten b),
                    utf8Lossy_cons10, utf8Lossy_four_end b h4 h5, List.singleton_append]
                | cons b1 t1 =>
                  simp only [List.cons_append]
                  by_cases hp : snd4lo b ≤ b1 ∧ b1 < snd4hi b
                  · cases t1 with
                    | nil =>
                      rw [List.nil_append, utf8Lossy_four_bad2 b b1 10 ys h4 h5 hp (by decide),
                        utf8Lossy_cons10, utf8Lossy_four_end2 b b1 h4 h5 hp,
                        List.singleton_append]
                    | cons b2 t2 =>
                      simp only [List.cons_append]
                      by_cases hc2 : isUtf8Cont b2 = true
                      · cases t2 with
                        | nil =>
                          rw [List.nil_append,
                            utf8Lossy_four_bad3 b b1 b2 10 ys h4 h5 hp hc2 (by decide),
                            utf8Lossy_cons10, utf8Lossy_four_end3 b b1 b2 h4 h5 hp hc2,
                            List.singleton_append]
                        | cons b3 t3 =>
                          simp only [List.cons_append]
                          by_cases hc3 : isUtf8Cont b3 = true
                          · have h6 : t3.length ≤ n := by
                              simp only [List.length_cons] at hxs
                              omega
                            rw [utf8Lossy_four_ok b b1 b2 b3 _ h4 h5 hp hc2 hc3,
                              utf8Lossy_four_ok b b1 b2 b3 t3 h4 h5 hp hc2 hc3, ih t3 ys h6,
                              List.cons_append]
                          · have h6 : (b3 :: t3).length ≤ n := by
                              simp only [List.length_cons] at hxs ⊢
                              omega
                            have hih := ih (b3 :: t3) ys h6
                            simp only [List.cons_append] at hih
                            rw [utf8Lossy_four_bad3 b b1 b2 b3 _ h4 h5 hp hc2 hc3,
                              utf8Lossy_four_bad3 b b1 b2 b3 t3 h4 h5 hp hc2 hc3, hih,
                              List.cons_append]
                      · have h6 : (b2 :: t2).length ≤ n := by
                          simp only [List.length_cons] at hxs ⊢
                          omega
                        have hih := ih (b2 :: t2) ys h6
                        simp only [List.cons_append] at hih
                        rw [utf8Lossy_four_bad2 b b1 b2 _ h4 h5 hp hc2,
                          utf8Lossy_four_bad2 b b1 b2 t2 h4 h5 hp hc2, hih, List.cons_append]
                  · have hih := ih (b1 :: t1) ys hlen
                    simp only [List.cons_append] at hih
                    rw [utf8Lossy_four_bad1 b b1 _ h4 h5 hp,
                      utf8Lossy_four_bad1 b b1 t1 h4 h5 hp, hih, List.cons_append]
              · rw [utf8Lossy_high b _ h5, utf8Lossy_high b t h5, ih t ys hlen,
                  List.cons_append]

/-- Lossy decoding distributes over a newline split. -/
theorem utf8Lossy_split (xs ys : List Nat) :
    utf8Lossy (xs ++ 10 :: ys) = utf8Lossy xs ++ 10 :: utf8Lossy ys :=
  utf8Lossy_split_aux xs.length xs ys (le_refl _)

/-- Special case: decoding a newline-terminated buffer keeps the newline
last. -/
theorem utf8Lossy_snoc10 (xs : List Nat) :
    utf8Lossy (xs ++ [10]) = utf8Lossy xs ++ [10] := by
  have h := utf8Lossy_split xs []
  rw [utf8Lossy_nil] at h
  exact h

/-! ### Reader loop lemmas -/

theorem splitChunk_concat (bytes : List Nat) : ∀ (lineBuf tail : List Nat),
    ((splitChunk lineBuf bytes).1.flatten) ++ utf8Lossy ((splitChunk lineBuf bytes).2 ++ tail)
      = utf8Lossy (lineBuf ++ bytes ++ tail) := by
  induction bytes with
  | nil =>
    intro lineBuf tail
    simp [splitChunk]
  | cons b rest ih =>
    intro lineBuf tail
    by_cases hb : b = 10
    · subst hb
      have h10 := ih [] tail
      rw [List.nil_append] at h10
      simp only [splitChunk, if_true, List.flatten_cons, List.append_assoc]
      rw [h10, utf8Lossy_snoc10]
      have harr : lineBuf ++ (10 :: rest ++ tail) = lineBuf ++ (10 :: (rest ++ tail)) := by
        simp
      rw [harr, utf8Lossy_split]
      simp
    · simp only [splitChunk, if_neg hb]
      have h2 := ih (lineBuf ++ [b]) tail
      rw [h2]
      congr 1
      simp

theorem splitChunk_lines_end (bytes : List Nat) : ∀ (lineBuf : List Nat),
    ∀ l ∈ (splitChunk lineBuf bytes).1, l.getLast? = Option.some 10 := by
  induction bytes with
  | nil =>
    intro lineBuf l hl
    simp [splitChunk] at hl
  | cons b rest ih =>
    intro lineBuf l hl
    by_cases hb : b = 10
    · subst hb
      simp only [splitChunk, if_true] at hl
      rcases List.mem_cons.mp hl with h1 | h2
      · subst h1
        rw [utf8Lossy_snoc10]
        exact List.getLast?_concat _
      · exact ih [] l h2
    · simp only [splitChunk, if_neg hb] at hl
      exact ih (lineBuf ++ [b]) l hl

theorem deliveredLines_eofFinish (lineBuf : List Nat) (batch : List (List Nat)) :
    deliveredLines (eofFinish lineBuf batch)
      = batch ++ (if lineBuf = [] then [] else [utf8Lossy lineBuf]) := by
  unfold eofFinish deliveredLines
  dsimp only
  by_cases hl : lineBuf = []
  · subst hl
    by_cases hb : batch = [] <;> simp [hb]
  · rw [if_neg hl, if_neg hl]
    rw [if_neg (by simp)]
    simp

/-- The event list of the end-of-stream branch: zero or one non-empty
`NewLines` event, then `EOF`. -/
theorem eofFinish_shape (lineBuf : List Nat) (batch : List (List Nat)) :
    ∃ front, eofFinish lineBuf batch = front ++ [MEvent.eof] ∧
      ∀ e ∈ front, ∃ bt, e = MEvent.newLines bt ∧ bt ≠ [] := by
  unfold eofFinish
  dsimp only
  by_cases h2 : (if lineBuf = [] then batch else batch ++ [utf8Lossy lineBuf]) = []
  · refine ⟨[], ?_, ?_⟩
    · rw [if_pos h2]
    · intro e he
      simp at he
  · refine ⟨[MEvent.newLines (if lineBuf = [] then batch else batch ++ [utf8Lossy lineBuf])],
      ?_, ?_⟩
    · rw [if_neg h2]
    · intro e he
      simp only [List.mem_singleton] at he
      subst he
      exact ⟨_, rfl, h2⟩

theorem mem_dropLast_append {α : Type} (A B : List α) (l : α)
    (h : l ∈ (A ++ B).dropLast) : l ∈ A ∨ l ∈ B.dropLast := by
  cases B with
  | nil =>
    rw [List.append_nil] at h
    exact Or.inl (List.mem_of_mem_dropLast h)
  | cons b bs =>
    rw [List.dropLast_append_cons] at h
    rcases List.mem_append.mp h with h1 | h2
    · exact Or.inl h1
    · exact Or.inr h2

theorem deliveredLines_cons_newLines (b : List (List Nat)) (evs : List MEvent) :
    deliveredLines (MEvent.newLines b :: evs) = b ++ deliveredLines evs := by
  simp [deliveredLines]

theorem streamBytes_cons (c : ReadRes) (rest : List ReadRes) :
    streamBytes (c :: rest) = chunkBytes c ++ streamBytes rest := by
  simp [streamBytes]

/-- Master invariant of the reader loop on an error-free stream of
non-empty chunks: the thread returns `Ok`, the event list is some
non-empty `NewLines` batches followed by exactly one final `EOF`, the
delivered lines concatenate to the lossy decoding of all unconsumed
bytes, and every delivered line except possibly the overall last one is
newline-terminated (given the batch already in flight is). -/
theorem readerLoop_spec (chunks : List ReadRes) : ∀ (flushes : List Bool)
    (lineBuf : List Nat) (batch : List (List Nat)),
    (∀ c ∈ chunks, ∃ bs, c = ReadRes.ok bs ∧ bs ≠ []) →
    (readerLoop chunks flushes lineBuf batch).2 = Except.ok () ∧
    (∃ front, (readerLoop chunks flushes lineBuf batch).1 = front ++ [MEvent.eof] ∧
      ∀ e ∈ front, ∃ bt, e = MEvent.newLines bt ∧ bt ≠ []) ∧
    (deliveredLines (readerLoop chunks flushes lineBuf batch).1).flatten
      = batch.flatten ++ utf8Lossy (lineBuf ++ streamBytes chunks) ∧
    ((∀ l ∈ batch, l.getLast? = Option.some 10) →
      ∀ l ∈ (deliveredLines (readerLoop chunks flushes lineBuf batch).1).dropLast,
        l.getLast? = Option.some 10) := by
  induction chunks with
  | nil =>
    intro flushes lineBuf batch hok
    refine ⟨rfl, eofFinish_shape lineBuf batch, ?_, ?_⟩
    · show (deliveredLines (eofFinish lineBuf batch)).flatten = _
      rw [deliveredLines_eofFinish]
      by_cases hl : lineBuf = []
      · simp [hl, streamBytes, utf8Lossy_nil]
      · simp [hl, streamBytes]
    · intro hbatch l hl
      have hl2 : l ∈ (deliveredLines (eofFinish lineBuf batch)).dropLast := hl
      rw [deliveredLines_eofFinish] at hl2
      by_cases hlb : lineBuf = []
      · rw [if_pos hlb, List.append_nil] at hl2
        exact hbatch l (List.mem_of_mem_dropLast hl2)
      · rw [if_neg hlb, List.dropLast_concat] at hl2
        exact hbatch l hl2
  | cons c rest ih =>
    intro flushes lineBuf batch hok
    cases c with
    | fail cause =>
      exfalso
      obtain ⟨bs, hc, _⟩ := hok _ (List.mem_cons_self _ _)
      exact ReadRes.noConfusion hc
    | ok bytes =>
      have hb : bytes ≠ [] := by
        obtain ⟨bs, hc, hne⟩ := hok _ (List.mem_cons_self _ _)
        injection hc with h
        rw [h]
        exact hne
      have hrest : ∀ c' ∈ rest, ∃ bs, c' = ReadRes.ok bs ∧ bs ≠ [] :=
        fun c' h' => hok c' (List.mem_cons_of_mem _ h')
      simp only [readerLoop]
      rw [if_neg hb]
      by_cases hf : flushes.headD false = true ∧ batch ++ (splitChunk lineBuf bytes).1 ≠ []
      · rw [if_pos hf]
        obtain ⟨ih1, ih2, ih3, ih4⟩ :=
          ih flushes.tail (splitChunk lineBuf bytes).2 [] hrest
        simp only [List.flatten_nil, List.nil_append] at ih3
        refine ⟨ih1, ?_, ?_, ?_⟩
        · obtain ⟨front', hfr, hfr2⟩ := ih2
          refine ⟨MEvent.newLines (batch ++ (splitChunk lineBuf bytes).1) :: front', ?_, ?_⟩
          · show MEvent.newLines _ :: (readerLoop rest flushes.tail _ []).1 = _
            rw [hfr, List.cons_append]
          · intro e he
            rcases List.mem_cons.mp he with h1 | h2
            · subst h1
              exact ⟨_, rfl, hf.2⟩
            · exact hfr2 e h2
        · show (deliveredLines (MEvent.newLines _ :: (readerLoop rest flushes.tail _ []).1)).flatten
            = _
          rw [deliveredLines_cons_newLines, List.flatten_append, List.flatten_append, ih3,
            List.append_assoc, splitChunk_concat bytes lineBuf (streamBytes rest),
            streamBytes_cons]
          show _ = batch.flatten ++ utf8Lossy (lineBuf ++ (bytes ++ streamBytes rest))
          rw [← List.append_assoc]
        · intro hbatch l hl
          have hl2 : l ∈ (deliveredLines (MEvent.newLines (batch ++ (splitChunk lineBuf bytes).1)
              :: (readerLoop rest flushes.tail (splitChunk lineBuf bytes).2 []).1)).dropLast := hl
          rw [deliveredLines_cons_newLines] at hl2
          rcases mem_dropLast_append _ _ _ hl2 with h1 | h2
          · rcases List.mem_append.mp h1 with ha | hb2
            · exact hbatch l ha
            · exact splitChunk_lines_end bytes lineBuf l hb2
          · exact ih4 (by intro l2 hl3; simp at hl3) l h2
      · rw [if_neg hf]
        obtain ⟨ih1, ih2, ih3, ih4⟩ :=
          ih flushes.tail (splitChunk lineBuf bytes).2 (batch ++ (splitChunk lineBuf bytes).1)
            hrest
        refine ⟨ih1, ih2, ?_, ?_⟩
        · rw [ih3, List.flatten_append, List.append_assoc,
            splitChunk_concat bytes lineBuf (streamBytes rest), streamBytes_cons]
          show _ = batch.flatten ++ utf8Lossy (lineBuf ++ (bytes ++ streamBytes rest))
          rw [← List.append_assoc]
        · intro hbatch
          refine ih4 ?_
          intro l hl
          rcases List.mem_append.mp hl with ha | hb2
          · exact hbatch l ha
          · exact splitChunk_lines_end bytes lineBuf l hb2

/-! ## Claim theorems -/

theorem stepByte_sawCharBack (st : DecSt) (prev b : Nat)
    (hst : st.state = RecState.sawCharBack prev) :
    stepByte st b =
      if prev = b then (pushChar (pushSpan st PStyle.bold) b).setState RecState.idle
      else if prev = 95 then
        (pushChar (pushSpan st PStyle.underline) b).setState RecState.idle
      else (pushChar (pushSpan (pushChar (pushSpan st PStyle.plain) prev) PStyle.plain)
        b).setState RecState.idle := by
  unfold stepByte
  rw [hst]

theorem finalizeSpans_sawChar (st : DecSt) (c : Nat) (hst : st.state = RecState.sawChar c) :
    finalizeSpans st =
      (if (pushChar (pushSpan st PStyle.plain) c).current_text ≠ [] then
        (pushChar (pushSpan st PStyle.plain) c).result
          ++ [((pushChar (pushSpan st PStyle.plain) c).current_text,
              (pushChar (pushSpan st PStyle.plain) c).current_style)]
      else (pushChar (pushSpan st PStyle.plain) c).result) := by
  unfold finalizeSpans
  rw [hst]

theorem spansChars_final (st2 : DecSt) :
    spansChars (if st2.current_text ≠ [] then
      st2.result ++ [(st2.current_text, st2.current_style)] else st2.result)
      = emittedChars st2 := by
  by_cases ht : st2.current_text = []
  · rw [if_neg (by simp [ht])]
    simp [emittedChars, ht]
  · rw [if_pos (by simp [ht])]
    simp [spansChars, emittedChars, spanChars]

theorem setState_state (st : DecSt) (s : RecState) : (st.setState s).state = s := rfl

/-- C4: the overstrike decoder is exactly the specified 3-state
recognizer: from `SawCharBack(prev)` on byte `b`, it emits `b` bold when
`b = prev`, emits `b` underlined when `prev = '_'` (95), and otherwise
emits `prev` then `b` as plain, returning to `Idle` each time; a pending
`SawChar` is flushed plain at end of input; adjacent equal-style
characters coalesce into single spans (no empty span, no two adjacent
spans of equal style); and the three round-trip examples decode as
specified. -/
theorem c4_overstrike_recognizer :
    (∀ (st : DecSt) (prev b : Nat), st.state = RecState.sawCharBack prev →
      ((b = prev →
        emittedChars (stepByte st b) = emittedChars st ++ [(b, PStyle.bold)] ∧
        (stepByte st b).state = RecState.idle) ∧
       (b ≠ prev → prev = 95 →
        emittedChars (stepByte st b) = emittedChars st ++ [(b, PStyle.underline)] ∧
        (stepByte st b).state = RecState.idle) ∧
       (b ≠ prev → prev ≠ 95 →
        emittedChars (stepByte st b)
          = emittedChars st ++ [(prev, PStyle.plain), (b, PStyle.plain)] ∧
        (stepByte st b).state = RecState.idle))) ∧
    (∀ (st : DecSt) (c : Nat), st.state = RecState.sawChar c →
      spansChars (finalizeSpans st) = emittedChars st ++ [(c, PStyle.plain)]) ∧
    (∀ input : List Nat,
      List.Chain' (fun a b => a.2 ≠ b.2) (parse_styled_spans input) ∧
      ∀ sp ∈ parse_styled_spans input, sp.1 ≠ []) ∧
    parse_styled_spans [78, 8, 78, 65, 8, 65, 77, 8, 77, 69, 8, 69]
      = [([78, 65, 77, 69], PStyle.bold)] ∧
    parse_styled_spans [95, 8, 88] = [([88], PStyle.underline)] ∧
    parse_styled_spans [112, 108, 97, 105, 110]
      = [([112, 108, 97, 105, 110], PStyle.plain)] := by
  refine ⟨?_, ?_, ?_, by decide, by decide, by decide⟩
  · intro st prev b hst
    refine ⟨?_, ?_, ?_⟩
    · intro hb
      rw [stepByte_sawCharBack st prev b hst, if_pos hb.symm]
      refine ⟨?_, rfl⟩
      rw [emitted_setState, emitted_pushChar, emitted_pushSpan, pushSpan_style]
    · intro hb h95
      rw [stepByte_sawCharBack st prev b hst, if_neg (fun h => hb h.symm), if_pos h95]
      refine ⟨?_, rfl⟩
      rw [emitted_setState, emitted_pushChar, emitted_pushSpan, pushSpan_style]
    · intro hb h95
      rw [stepByte_sawCharBack st prev b hst, if_neg (fun h => hb h.symm), if_neg h95]
      refine ⟨?_, rfl⟩
      rw [emitted_setState, emitted_pushChar, emitted_pushSpan, pushSpan_style,
        emitted_pushChar, emitted_pushSpan, pushSpan_style, List.append_assoc]
      rfl
  · intro st c hst
    rw [finalizeSpans_sawChar st c hst, spansChars_final, emitted_pushChar, emitted_pushSpan,
      pushSpan_style]
  · intro input
    exact finalize_coalesced _ (decInv_foldl input _ decInv_init)

theorem c4_overstrike_recognizer_witness :
    emittedChars (stepByte ⟨[], PStyle.plain, [], RecState.sawCharBack 95⟩ 88)
      = emittedChars ⟨[], PStyle.plain, [], RecState.sawCharBack 95⟩
        ++ [(88, PStyle.underline)]
      ∧ (stepByte ⟨[], PStyle.plain, [], RecState.sawCharBack 95⟩ 88).state
        = RecState.idle :=
  (c4_overstrike_recognizer.1 ⟨[], PStyle.plain, [], RecState.sawCharBack 95⟩ 95 88 rfl).2.1
    (by decide) rfl

/-- C9: the decoder is a pure total function on arbitrary byte sequences:
the loop with checked indexing and fuel never hits an out-of-bounds
access or fails to terminate, and computes exactly `parse_styled_spans`. -/
theorem c9_decoder_total (input : List Nat) :
    parse_styled_spans_checked input = Option.some (parse_styled_spans input) := by
  unfold parse_styled_spans_checked parse_styled_spans
  rw [parseLoopGo_eq input.length input 0 initDecSt (by omega)]
  rfl

/-- C5: the key-sequence machine matches the specified table: `g g` from
Normal yields GoToTop ending Normal; `g 5 Enter` yields GoToLine 5 ending
Normal; in `WaitingGNumber n` a digit `d` accumulates `n*10 + d` with no
action, Enter yields GoToLine n back to Normal, and any other key abandons
the sequence with no action. -/
theorem c5_key_sequences :
    (∀ m1 m2 : Nat, runKeys KeyState.normal
      [⟨m1, MKeyCode.char 103⟩, ⟨m2, MKeyCode.char 103⟩]
      = (KeyState.normal, [NavAction.none, NavAction.goToTop])) ∧
    (∀ m1 m2 m3 : Nat, runKeys KeyState.normal
      [⟨m1, MKeyCode.char 103⟩, ⟨m2, MKeyCode.char 53⟩, ⟨m3, MKeyCode.enter⟩]
      = (KeyState.normal, [NavAction.none, NavAction.none, NavAction.goToLine 5])) ∧
    (∀ (n c m : Nat), 48 ≤ c → c ≤ 57 →
      KeyState.next (KeyState.waitingGNumber n) ⟨m, MKeyCode.char c⟩
        = (KeyState.waitingGNumber (n * 10 + (c - 48)), NavAction.none)) ∧
    (∀ (n m : Nat), KeyState.next (KeyState.waitingGNumber n) ⟨m, MKeyCode.enter⟩
      = (KeyState.normal, NavAction.goToLine n)) ∧
    (∀ (n : Nat) (k : MKeyEvent),
      (∀ c, k.code = MKeyCode.char c → ¬(48 ≤ c ∧ c ≤ 57)) → k.code ≠ MKeyCode.enter →
      KeyState.next (KeyState.waitingGNumber n) k = (KeyState.normal, NavAction.none)) := by
  refine ⟨?_, ?_, ?_, ?_, ?_⟩
  · intro m1 m2
    rfl
  · intro m1 m2 m3
    rfl
  · intro n c m h1 h2
    have hdig : isAsciiDigit c = true := by
      unfold isAsciiDigit
      simp only [Bool.and_eq_true, decide_eq_true_eq]
      exact ⟨h1, h2⟩
    show (if isAsciiDigit c = true then
        (KeyState.waitingGNumber (n * 10 + toDigitVal c), NavAction.none)
      else (KeyState.normal, NavAction.none)) = _
    rw [if_pos hdig]
    rfl
  · intro n m
    rfl
  · intro n k hnd hne
    obtain ⟨m, code⟩ := k
    cases code with
    | char c =>
      have hdig : ¬isAsciiDigit c = true := by
        intro hd
        unfold isAsciiDigit at hd
        simp only [Bool.and_eq_true, decide_eq_true_eq] at hd
        exact hnd c rfl hd
      show (if isAsciiDigit c = true then
          (KeyState.waitingGNumber (n * 10 + toDigitVal c), NavAction.none)
        else (KeyState.normal, NavAction.none)) = _
      rw [if_neg hdig]
    | enter => exact absurd rfl hne
    | esc => rfl
    | other => rfl

theorem c5_key_sequences_witness :
    KeyState.next (KeyState.waitingGNumber 7) ⟨0, MKeyCode.char 53⟩
      = (KeyState.waitingGNumber (7 * 10 + (53 - 48)), NavAction.none) :=
  c5_key_sequences.2.2.1 7 53 0 (by decide) (by decide)

/-- C3: after any sequence of viewport operations (all scroll methods,
go-to-line, resize) interleaved with arbitrary ingestion, starting from
the freshly opened application state, the scroll offset satisfies
`top_line ≤ total_count - height` (saturating subtraction, i.e.
`max(0, total − height)`), and in particular it is pinned to 0 whenever
the store holds fewer lines than the viewport height. -/
theorem c3_viewport_clamped (h w : Nat) (ops : List ViewOp) :
    (applyViewOps (initApp h w) ops).current_line
      ≤ (applyViewOps (initApp h w) ops).store.current_total_lines
        - (applyViewOps (initApp h w) ops).term_height ∧
    ((applyViewOps (initApp h w) ops).store.current_total_lines
        < (applyViewOps (initApp h w) ops).term_height →
      (applyViewOps (initApp h w) ops).current_line = 0) := by
  have hinv : appInv (applyViewOps (initApp h w) ops) :=
    appInv_ops _ ops ⟨rfl, Nat.zero_le _⟩
  obtain ⟨hcnt, hview⟩ := hinv
  have hv : (applyViewOps (initApp h w) ops).current_line
      ≤ (applyViewOps (initApp h w) ops).store.current_total_lines
        - (applyViewOps (initApp h w) ops).term_height := hview
  refine ⟨hv, ?_⟩
  intro hlt
  omega

theorem c3_viewport_clamped_witness :
    (applyViewOps (initApp 10 80) [ViewOp.ingest [[65, 10]], ViewOp.goToBottom]).current_line
      = 0 :=
  (c3_viewport_clamped 10 80 [ViewOp.ingest [[65, 10]], ViewOp.goToBottom]).2 (by decide)

theorem foldl_applyBatch_lines (batches : List (List (List Nat))) : ∀ st : OpenedInputSt,
    (batches.foldl applyBatch st).lines = st.lines ++ batches.flatten := by
  induction batches with
  | nil =>
    intro st
    simp
  | cons b rest ih =>
    intro st
    rw [List.foldl_cons, ih]
    simp [applyBatch]

theorem foldl_applyBatch_total (batches : List (List (List Nat))) : ∀ st : OpenedInputSt,
    st.current_total_lines = st.lines.length →
    (batches.foldl applyBatch st).current_total_lines
      = (batches.foldl applyBatch st).lines.length := by
  induction batches with
  | nil => exact fun st h => h
  | cons b rest ih =>
    intro st h
    rw [List.foldl_cons]
    exact ih _ rfl

/-- C6: the line store is append-only and monotone: after each prefix of
applied `NewLines` batches, `current_total_lines` equals both the store
length and the cumulative sum of batch sizes, never decreases, and each
store content is a prefix of the next. -/
theorem c6_store_monotone (batches : List (List (List Nat))) (i : Nat) :
    (storeAfter (batches.take i)).current_total_lines
      = (storeAfter (batches.take i)).lines.length ∧
    (storeAfter (batches.take i)).current_total_lines
      = ((batches.take i).map List.length).sum ∧
    (storeAfter (batches.take i)).current_total_lines
      ≤ (storeAfter (batches.take (i + 1))).current_total_lines ∧
    ∃ t, (storeAfter (batches.take (i + 1))).lines
      = (storeAfter (batches.take i)).lines ++ t := by
  have hlines : ∀ bs : List (List (List Nat)), (storeAfter bs).lines = bs.flatten :=
    fun bs => foldl_applyBatch_lines bs initOpenedInput
  have htotal : ∀ bs : List (List (List Nat)),
      (storeAfter bs).current_total_lines = (storeAfter bs).lines.length :=
    fun bs => foldl_applyBatch_total bs initOpenedInput rfl
  refine ⟨htotal _, ?_, ?_, ?_⟩
  · rw [htotal _, hlines _, List.length_flatten]
  · rw [htotal _, htotal _, hlines _, hlines _, List.take_succ, List.flatten_append,
      List.length_append]
    exact Nat.le_add_right _ _
  · rw [hlines _, hlines _, List.take_succ, List.flatten_append]
    exact ⟨_, rfl⟩

/-- C7: `lines(start, count)` is total and never errors: the checked
variant (slice indexing and subtraction guarded) always returns `Ok`,
the result is empty iff nothing is requested or available, and otherwise
it is exactly the `min(count, len − start)` decoded lines from `start`;
in particular, on the empty store after only an EOF event, any request
yields the empty sequence. -/
theorem c7_lines_clamped (st : OpenedInputSt) (start count : Nat) :
    st.linesFnChecked start count = Option.some (Except.ok (st.linesFn start count)) ∧
    (count = 0 ∨ st.lines.length ≤ start → st.linesFn start count = []) ∧
    (st.linesFn start count).length = min count (st.lines.length - start) ∧
    st.linesFn start count
      = ((st.lines.drop start).take (min count (st.lines.length - start))).map
          parse_styled_spans ∧
    (initOpenedInput.handle_event MEvent.eof
      = Option.some (Except.ok
        { lines := [], reached_eof := true, current_total_lines := 0 }) ∧
     OpenedInputSt.linesFn
       { lines := [], reached_eof := true, current_total_lines := 0 } 0 count = []) := by
  refine ⟨?_, ?_, ?_, ?_, rfl, ?_⟩
  · unfold OpenedInputSt.linesFnChecked OpenedInputSt.linesFn sliceChecked
    by_cases hg : count = 0 ∨ st.lines.length < start
    · rw [if_pos hg, if_pos hg]
    · rw [if_neg hg, if_neg hg]
      push_neg at hg
      dsimp only
      rw [if_pos (by constructor <;> omega)]
      dsimp only
      have harg : start + min count (st.lines.length - start) - start
          = min count (st.lines.length - start) := by omega
      rw [harg]
  · intro h
    unfold OpenedInputSt.linesFn
    by_cases hg : count = 0 ∨ st.lines.length < start
    · rw [if_pos hg]
    · rw [if_neg hg]
      push_neg at hg
      rcases h with h | h
      · exact absurd h hg.1
      · have hlen : st.lines.length = start := le_antisymm h hg.2
        simp [hlen]
  · unfold OpenedInputSt.linesFn
    by_cases hg : count = 0 ∨ st.lines.length < start
    · rw [if_pos hg]
      rcases hg with h | h
      · simp [h]
      · simp only [List.length_nil]
        omega
    · rw [if_neg hg]
      push_neg at hg
      rw [List.length_map, List.length_take, List.length_drop]
      omega
  · unfold OpenedInputSt.linesFn
    by_cases hg : count = 0 ∨ st.lines.length < start
    · rw [if_pos hg]
      rcases hg with h | h
      · simp [h]
      · rw [List.drop_eq_nil_of_le (by omega)]
        simp
    · rw [if_neg hg]
  · unfold OpenedInputSt.linesFn
    by_cases hc : count = 0
    · rw [if_pos (Or.inl hc)]
    · simp

theorem c7_lines_clamped_witness :
    OpenedInputSt.linesFn
      { lines := [[104, 10]], reached_eof := false, current_total_lines := 1 } 5 3 = [] :=
  (c7_lines_clamped { lines := [[104, 10]], reached_eof := false, current_total_lines := 1 }
    5 3).2.1 (Or.inr (by decide))

/-- C8: on end-of-stream the reader completes the trailing partial line,
flushes the pending batch as one `NewLines` event if non-empty, then
sends `EOF` exactly once as the very last event and stops: the thread
returns `Ok`, the event list is non-empty `NewLines` batches followed by
one final `EOF` (no `EOF` among them, nothing after it), and the
delivered lines concatenate to the decoding of the whole stream —
including the completed trailing partial line. -/
theorem c8_eof_terminal (chunks : List ReadRes) (flushes : List Bool)
    (hok : ∀ c ∈ chunks, ∃ bs, c = ReadRes.ok bs ∧ bs ≠ []) :
    (readerThread OpenRes.opened chunks flushes).2 = Except.ok () ∧
    (∃ front, (readerThread OpenRes.opened chunks flushes).1 = front ++ [MEvent.eof] ∧
      MEvent.eof ∉ front ∧
      ∀ e ∈ front, ∃ bt, e = MEvent.newLines bt ∧ bt ≠ []) ∧
    (deliveredLines (readerThread OpenRes.opened chunks flushes).1).flatten
      = utf8Lossy (streamBytes chunks) := by
  obtain ⟨h1, ⟨front, hfr, hfr2⟩, h3, _⟩ := readerLoop_spec chunks flushes [] [] hok
  refine ⟨h1, ⟨front, hfr, ?_, hfr2⟩, ?_⟩
  · intro hmem
    obtain ⟨bt, hbt, _⟩ := hfr2 _ hmem
    exact MEvent.noConfusion hbt
  · show (deliveredLines (readerLoop chunks flushes [] []).1).flatten = _
    rw [h3]
    simp

theorem c8_eof_terminal_witness :
    (readerThread OpenRes.opened [ReadRes.ok [104, 105, 10, 33]] [false]).2
      = Except.ok () :=
  (c8_eof_terminal [ReadRes.ok [104, 105, 10, 33]] [false]
    (by
      intro c hc
      simp only [List.mem_singleton] at hc
      subst hc
      exact ⟨[104, 105, 10, 33], rfl, by decide⟩)).1

/-- C10: every completed line the reader delivers keeps its terminating
newline (only the overall last delivered line — the completed trailing
partial — may lack it), and the in-order concatenation of all delivered
lines equals the lossy UTF-8 decoding of the entire input stream: the
splitting loop drops and duplicates no bytes. -/
theorem c10_byte_conservation (chunks : List ReadRes) (flushes : List Bool)
    (hok : ∀ c ∈ chunks, ∃ bs, c = ReadRes.ok bs ∧ bs ≠ []) :
    (deliveredLines (readerThread OpenRes.opened chunks flushes).1).flatten
      = utf8Lossy (streamBytes chunks) ∧
    ∀ l ∈ (deliveredLines (readerThread OpenRes.opened chunks flushes).1).dropLast,
      l.getLast? = Option.some 10 := by
  obtain ⟨_, _, h3, h4⟩ := readerLoop_spec chunks flushes [] [] hok
  constructor
  · show (deliveredLines (readerLoop chunks flushes [] []).1).flatten = _
    rw [h3]
    simp
  · intro l hl
    exact h4 (by intro l2 hl2; simp at hl2) l hl

theorem c10_byte_conservation_witness :
    (deliveredLines (readerThread OpenRes.opened [ReadRes.ok [195, 169, 10, 122]] [true]).1).flatten
      = utf8Lossy (streamBytes [ReadRes.ok [195, 169, 10, 122]]) :=
  (c10_byte_conservation [ReadRes.ok [195, 169, 10, 122]] [true]
    (by
      intro c hc
      simp only [List.mem_singleton] at hc
      subst hc
      exact ⟨[195, 169, 10, 122], rfl, by decide⟩)).1

/-- C1 (code bug): on every reader failure path — open failure, directory
path, or a mid-stream I/O error — the thread closure returns `Err`
without sending any event into the channel: the only events the reader
ever sends are `NewLines` and `EOF`, never a failure event, so the
dispatcher (which has handling code for `Event::Err` and
`Event::ReaderThreadErrReturned`, neither of which the reader produces)
never observes the cause. -/
theorem c1_reader_failure_silent :
    readerThread (OpenRes.openErr [101]) [ReadRes.ok [104, 105, 10]] [true]
      = ([], Except.error [101]) ∧
    readerThread (OpenRes.isDir [112]) [ReadRes.ok [104, 105, 10]] [true]
      = ([], Except.error [112]) ∧
    readerThread OpenRes.opened [ReadRes.ok [65, 10], ReadRes.fail [99]] [true, true]
      = ([MEvent.newLines [[65, 10]]], Except.error [99]) := by
  refine ⟨rfl, rfl, ?_⟩
  rfl

/-- C2 (code bug): the reader loop batches lines straight from
`String::from_utf8_lossy` without any tab expansion, so a line containing
a raw tab (byte 9) is delivered with the tab intact; the fixed-width
expansion (`replace('\t', "  ")`) exists only in the uncalled
`InputReader::read_line` and would have removed it. -/
theorem c2_tab_reaches_consumer :
    readerThread OpenRes.opened [ReadRes.ok [97, 9, 98, 10]] [false]
      = ([MEvent.newLines [[97, 9, 98, 10]], MEvent.eof], Except.ok ()) ∧
    (9 : Nat) ∈ ([97, 9, 98, 10] : List Nat) ∧
    replaceTabs [97, 9, 98, 10] = [97, 32, 32, 98, 10] ∧
    (9 : Nat) ∉ replaceTabs [97, 9, 98, 10] := by
  refine ⟨rfl, by decide, rfl, by decide⟩
